import Mathlib

/-!
Shallow embedding of `isptools.py` (toaarnio/bayer2ppm): robust black/white
level estimation via percentiles, bit-depth requantization, and sRGB/rec709
gamma encoding/decoding.

A frame is modelled as its flattened list of samples.  The percentile and
quantization functions work on exact rationals (`ℚ`), standing for the exact
real values the floating-point code approximates; the gamma transfer curves
need real powers and are modelled over `ℝ`.  Python exceptions are modelled
with `Except PyErr`.
-/

/-- Python exception kinds relevant to `isptools.py`. -/
inductive PyErr : Type
  /-- `ValueError`, raised by `np.percentile` when the rank is outside
  `[0, 100]`. -/
  | valueError : PyErr
  /-- `ZeroDivisionError`, raised by `float(maxOutliers) / frame.size` on an
  empty frame. -/
  | zeroDivisionError : PyErr
  /-- Error raised by `np.percentile` on an empty array. -/
  | indexError : PyErr
  /-- `UnboundLocalError`, raised when a local variable is read before any
  branch assigned it (the fallthrough in `gamma`/`degamma` for an
  unrecognized mode string). -/
  | unboundLocalError : PyErr
  deriving DecidableEq, Repr

/-- Linear interpolation between order statistics, the core of
`np.percentile` with the default "linear" method: for virtual index `i`
(already scaled to `[0, n-1]`), interpolate between the sorted samples at
`⌊i⌋` and the next index (clamped to `n-1`). -/
def percentileInterp (s : List ℚ) (n : ℕ) (i : ℚ) : ℚ :=
  s.getD (⌊i⌋).toNat 0 + (i - ((⌊i⌋).toNat : ℚ)) *
    (s.getD (min ((⌊i⌋).toNat + 1) (n - 1)) 0 - s.getD (⌊i⌋).toNat 0)

/-- `np.percentile(a, q)` with the default linear interpolation: sort the
flattened samples, take the virtual index `q/100 * (n-1)` and interpolate.
Ranks outside `[0, 100]` raise `ValueError`; an empty array fails. -/
def npPercentile (a : List ℚ) (q : ℚ) : Except PyErr ℚ :=
  if q < 0 ∨ 100 < q then .error .valueError
  else if a.length = 0 then .error .indexError
  else .ok (percentileInterp (a.insertionSort (· ≤ ·)) a.length
    (q / 100 * ((a.length : ℚ) - 1)))

/-- `isptools.blackLevel`: `pct = (float(maxOutliers) / frame.size) * 100.0;
return np.percentile(frame, pct)`.  On an empty frame the division raises
`ZeroDivisionError` before `np.percentile` runs. -/
def blackLevel (frame : List ℚ) (maxOutliers : ℤ) : Except PyErr ℚ :=
  if frame.length = 0 then .error .zeroDivisionError
  else npPercentile frame ((maxOutliers : ℚ) / (frame.length : ℚ) * 100)

/-- `isptools.whiteLevel`: `pct = (1.0 - float(maxOutliers) / frame.size) *
100.0; return np.percentile(frame, pct)`. -/
def whiteLevel (frame : List ℚ) (maxOutliers : ℤ) : Except PyErr ℚ :=
  if frame.length = 0 then .error .zeroDivisionError
  else npPercentile frame ((1 - (maxOutliers : ℚ) / (frame.length : ℚ)) * 100)

/-- `isptools.quantize`: when `maxval != newmaxval`, scale each sample by
`newmaxval / maxval`; in every case add `0.5` and cast to `np.uint16`
(truncation toward zero for the non-negative values the code is meant for;
the out-of-range cast is modelled as wraparound modulo `2^16`). -/
def quantize (frame : List ℚ) (maxval newmaxval : ℚ) : List ℕ :=
  (if maxval ≠ newmaxval then frame.map (fun s => s * (newmaxval / maxval))
    else frame).map (fun s => (⌊s + (1 : ℚ)/2⌋ % 65536).toNat)

/-! ### Helper lemmas about sorted lists and `npPercentile` -/

lemma sorted_getD_le (s : List ℚ) (hs : s.Sorted (· ≤ ·)) {a b : ℕ}
    (hab : a ≤ b) (hb : b < s.length) : s.getD a 0 ≤ s.getD b 0 := by
  have ha : a < s.length := lt_of_le_of_lt hab hb
  rw [List.getD_eq_getElem s 0 ha, List.getD_eq_getElem s 0 hb]
  have h := hs.rel_get_of_le (a := ⟨a, ha⟩) (b := ⟨b, hb⟩) hab
  simpa using h

lemma sorted_getD_mem (s : List ℚ) {j : ℕ} (hj : j < s.length) :
    s.getD j 0 ∈ s := by
  rw [List.getD_eq_getElem s 0 hj]
  exact List.getElem_mem hj

lemma npPercentile_ok (a : List ℚ) (q : ℚ) (h0 : 0 ≤ q) (h100 : q ≤ 100)
    (ha : a.length ≠ 0) :
    npPercentile a q = .ok (percentileInterp (a.insertionSort (· ≤ ·))
      a.length (q / 100 * ((a.length : ℚ) - 1))) := by
  unfold npPercentile
  rw [if_neg (by push_neg; exact ⟨h0, h100⟩), if_neg ha]

lemma percentileInterp_zero (s : List ℚ) (n : ℕ) :
    percentileInterp s n 0 = s.getD 0 0 := by
  simp [percentileInterp]

lemma percentileInterp_last (s : List ℚ) (n : ℕ) (hn : n ≠ 0) :
    percentileInterp s n ((n : ℚ) - 1) = s.getD (n - 1) 0 := by
  have h1 : (1 : ℕ) ≤ n := Nat.one_le_iff_ne_zero.mpr hn
  have hcast : (n : ℚ) - 1 = ((n - 1 : ℕ) : ℚ) := by
    push_cast [Nat.cast_sub h1]
    ring
  rw [percentileInterp, hcast]
  simp [Int.floor_natCast]

/-- C1: with `maxOutliers = 0`, `blackLevel` returns the true minimum sample
of the frame and `whiteLevel` the true maximum (percentile rank 0 resp. 100). -/
theorem blackLevel_zero_min_whiteLevel_zero_max (frame : List ℚ)
    (h : frame ≠ []) :
    ∃ m M : ℚ, blackLevel frame 0 = .ok m ∧ m ∈ frame ∧ (∀ x ∈ frame, m ≤ x) ∧
      whiteLevel frame 0 = .ok M ∧ M ∈ frame ∧ (∀ x ∈ frame, x ≤ M) := by
  have hn : frame.length ≠ 0 := fun h0 => h (List.length_eq_zero.mp h0)
  have hpos : 0 < frame.length := Nat.pos_of_ne_zero hn
  set s := frame.insertionSort (· ≤ ·) with hs_def
  have hperm : s.Perm frame := frame.perm_insertionSort (· ≤ ·)
  have hsort : s.Sorted (· ≤ ·) := frame.sorted_insertionSort (· ≤ ·)
  have hlen : s.length = frame.length := hperm.length_eq
  have hslen : s.length ≠ 0 := by rw [hlen]; exact hn
  refine ⟨s.getD 0 0, s.getD (frame.length - 1) 0, ?_, ?_, ?_, ?_, ?_, ?_⟩
  · rw [blackLevel, if_neg hn]
    have hq : ((0 : ℤ) : ℚ) / (frame.length : ℚ) * 100 = 0 := by
      norm_num
    rw [hq, npPercentile_ok frame 0 le_rfl (by norm_num) hn]
    rw [show (0 : ℚ) / 100 * ((frame.length : ℚ) - 1) = 0 by ring]
    rw [percentileInterp_zero]
  · exact hperm.mem_iff.mp (sorted_getD_mem s (Nat.pos_of_ne_zero hslen))
  · intro x hx
    have hxs : x ∈ s := hperm.mem_iff.mpr hx
    obtain ⟨⟨ix, hix⟩, rfl⟩ := List.mem_iff_get.mp hxs
    have : s.getD ix 0 = s.get ⟨ix, hix⟩ := (List.getD_eq_getElem s 0 hix).trans (List.get_eq_getElem s ⟨ix, hix⟩).symm
    rw [← this]
    exact sorted_getD_le s hsort (Nat.zero_le ix) hix
  · rw [whiteLevel, if_neg hn]
    have hq : (1 - ((0 : ℤ) : ℚ) / (frame.length : ℚ)) * 100 = 100 := by
      norm_num
    rw [hq, npPercentile_ok frame 100 (by norm_num) le_rfl hn]
    rw [show (100 : ℚ) / 100 * ((frame.length : ℚ) - 1) = (frame.length : ℚ) - 1 by ring]
    rw [percentileInterp_last _ _ hn]
  · refine hperm.mem_iff.mp (sorted_getD_mem s ?_)
    rw [hlen]
    omega
  · intro x hx
    have hxs : x ∈ s := hperm.mem_iff.mpr hx
    obtain ⟨⟨ix, hix⟩, rfl⟩ := List.mem_iff_get.mp hxs
    have hg : s.getD ix 0 = s.get ⟨ix, hix⟩ := (List.getD_eq_getElem s 0 hix).trans (List.get_eq_getElem s ⟨ix, hix⟩).symm
    rw [← hg]
    have hix2 : ix < frame.length := hlen ▸ hix
    refine sorted_getD_le s hsort (by omega) (by rw [hlen]; omega)

theorem blackLevel_zero_min_whiteLevel_zero_max_witness :
    ([(3 : ℚ), 1, 2] ≠ []) ∧
      (∃ m M : ℚ, blackLevel [(3 : ℚ), 1, 2] 0 = .ok m ∧ m ∈ [(3 : ℚ), 1, 2] ∧
        (∀ x ∈ [(3 : ℚ), 1, 2], m ≤ x) ∧
        whiteLevel [(3 : ℚ), 1, 2] 0 = .ok M ∧ M ∈ [(3 : ℚ), 1, 2] ∧
        (∀ x ∈ [(3 : ℚ), 1, 2], x ≤ M)) :=
  ⟨by simp, blackLevel_zero_min_whiteLevel_zero_max [3, 1, 2] (by simp)⟩

lemma floor_toNat_le_of_le (n : ℕ) {i : ℚ} (h0 : 0 ≤ i)
    (h2 : i ≤ (n : ℚ) - 1) : (⌊i⌋).toNat ≤ n - 1 := by
  have hn1 : (1 : ℚ) ≤ (n : ℚ) := by
    have := h0.trans h2
    by_contra hc
    push_neg at hc
    linarith
  have hn : 1 ≤ n := by exact_mod_cast hn1
  have hcast : (n : ℚ) - 1 = ((n - 1 : ℕ) : ℚ) := by
    push_cast [Nat.cast_sub hn]
    ring
  have hfl : ⌊i⌋ ≤ (n - 1 : ℕ) := by
    have := Int.floor_le_floor (α := ℚ) (h2.trans_eq hcast)
    simpa using this
  omega

lemma floor_toNat_cast {i : ℚ} (h0 : 0 ≤ i) : (((⌊i⌋).toNat : ℕ) : ℚ) = ⌊i⌋ := by
  have := Int.toNat_of_nonneg (Int.floor_nonneg.mpr h0)
  exact_mod_cast congrArg (fun z : ℤ => (z : ℚ)) this

lemma percentileInterp_ge (s : List ℚ) (hsort : s.Sorted (· ≤ ·)) {n : ℕ}
    (hn : n = s.length) (hn0 : n ≠ 0) {i : ℚ} (h0 : 0 ≤ i)
    (h2 : i ≤ (n : ℚ) - 1) :
    s.getD (⌊i⌋).toNat 0 ≤ percentileInterp s n i := by
  have hj : (⌊i⌋).toNat ≤ n - 1 := floor_toNat_le_of_le n h0 h2
  have hk : min ((⌊i⌋).toNat + 1) (n - 1) < s.length := by omega
  have hfrac : 0 ≤ i - ((⌊i⌋).toNat : ℚ) := by
    rw [floor_toNat_cast h0]
    exact sub_nonneg.mpr (Int.floor_le i)
  have hgg : s.getD (⌊i⌋).toNat 0 ≤ s.getD (min ((⌊i⌋).toNat + 1) (n - 1)) 0 :=
    sorted_getD_le s hsort (by omega) hk
  unfold percentileInterp
  nlinarith [mul_nonneg hfrac (sub_nonneg.mpr hgg)]

lemma percentileInterp_le (s : List ℚ) (hsort : s.Sorted (· ≤ ·)) {n : ℕ}
    (hn : n = s.length) (hn0 : n ≠ 0) {i : ℚ} (h0 : 0 ≤ i)
    (h2 : i ≤ (n : ℚ) - 1) :
    percentileInterp s n i ≤ s.getD (min ((⌊i⌋).toNat + 1) (n - 1)) 0 := by
  have hj : (⌊i⌋).toNat ≤ n - 1 := floor_toNat_le_of_le n h0 h2
  have hk : min ((⌊i⌋).toNat + 1) (n - 1) < s.length := by omega
  have hfrac : i - ((⌊i⌋).toNat : ℚ) ≤ 1 := by
    rw [floor_toNat_cast h0]
    have := Int.lt_floor_add_one i
    linarith
  have hgg : s.getD (⌊i⌋).toNat 0 ≤ s.getD (min ((⌊i⌋).toNat + 1) (n - 1)) 0 :=
    sorted_getD_le s hsort (by omega) hk
  unfold percentileInterp
  nlinarith [mul_le_mul_of_nonneg_right hfrac (sub_nonneg.mpr hgg)]

lemma percentileInterp_mono (s : List ℚ) (hsort : s.Sorted (· ≤ ·)) {n : ℕ}
    (hn : n = s.length) (hn0 : n ≠ 0) {i1 i2 : ℚ} (h0 : 0 ≤ i1) (h12 : i1 ≤ i2)
    (h2 : i2 ≤ (n : ℚ) - 1) :
    percentileInterp s n i1 ≤ percentileInterp s n i2 := by
  have h01 : 0 ≤ i2 := h0.trans h12
  have h21 : i1 ≤ (n : ℚ) - 1 := h12.trans h2
  have hj1 : (⌊i1⌋).toNat ≤ n - 1 := floor_toNat_le_of_le n h0 h21
  have hj2 : (⌊i2⌋).toNat ≤ n - 1 := floor_toNat_le_of_le n h01 h2
  have hjle : (⌊i1⌋).toNat ≤ (⌊i2⌋).toNat :=
    Int.toNat_le_toNat (Int.floor_le_floor h12)
  rcases eq_or_lt_of_le hjle with heq | hlt
  · -- same floor index: both interpolate on the same segment
    have hgg : s.getD (⌊i1⌋).toNat 0 ≤ s.getD (min ((⌊i1⌋).toNat + 1) (n - 1)) 0 :=
      sorted_getD_le s hsort (by omega) (by omega)
    unfold percentileInterp
    rw [← heq]
    nlinarith [mul_le_mul_of_nonneg_right (sub_le_sub_right h12 ((((⌊i1⌋).toNat : ℕ) : ℚ)))
      (sub_nonneg.mpr hgg)]
  · -- distinct floor indices: chain through the order statistics
    calc percentileInterp s n i1
        ≤ s.getD (min ((⌊i1⌋).toNat + 1) (n - 1)) 0 :=
          percentileInterp_le s hsort hn hn0 h0 h21
      _ ≤ s.getD (⌊i2⌋).toNat 0 := sorted_getD_le s hsort (by omega) (by omega)
      _ ≤ percentileInterp s n i2 := percentileInterp_ge s hsort hn hn0 h01 h2

lemma npPercentile_mono (a : List ℚ) (ha : a.length ≠ 0) (q1 q2 : ℚ)
    (h0 : 0 ≤ q1) (h12 : q1 ≤ q2) (h2 : q2 ≤ 100) :
    ∃ v1 v2, npPercentile a q1 = .ok v1 ∧ npPercentile a q2 = .ok v2 ∧
      v1 ≤ v2 := by
  have hsort : (a.insertionSort (· ≤ ·)).Sorted (· ≤ ·) :=
    a.sorted_insertionSort (· ≤ ·)
  have hlen : a.length = (a.insertionSort (· ≤ ·)).length :=
    (a.perm_insertionSort (· ≤ ·)).length_eq.symm
  have hn1 : (1 : ℚ) ≤ (a.length : ℚ) := by
    exact_mod_cast Nat.one_le_iff_ne_zero.mpr ha
  refine ⟨_, _, npPercentile_ok a q1 h0 (h12.trans h2) ha,
    npPercentile_ok a q2 (h0.trans h12) h2 ha, ?_⟩
  apply percentileInterp_mono _ hsort hlen ha
  · have : (0 : ℚ) ≤ (a.length : ℚ) - 1 := by linarith
    positivity
  · have : (0 : ℚ) ≤ (a.length : ℚ) - 1 := by linarith
    nlinarith
  · nlinarith

/-- C7: the estimated black level is non-decreasing and the estimated white
level non-increasing in the outlier tolerance, whenever both calls are
defined (`0 ≤ k` and `k + 1 ≤ frame.size`). -/
theorem blackLevel_mono_whiteLevel_antitone (frame : List ℚ) (k : ℤ)
    (h : frame ≠ []) (hk0 : 0 ≤ k) (hk1 : k + 1 ≤ (frame.length : ℤ)) :
    ∃ b1 b2 w1 w2 : ℚ, blackLevel frame k = .ok b1 ∧
      blackLevel frame (k + 1) = .ok b2 ∧ b1 ≤ b2 ∧
      whiteLevel frame k = .ok w1 ∧ whiteLevel frame (k + 1) = .ok w2 ∧
      w2 ≤ w1 := by
  have hn : frame.length ≠ 0 := fun h0 => h (List.length_eq_zero.mp h0)
  have hN : (0 : ℚ) < (frame.length : ℚ) := by
    exact_mod_cast Nat.pos_of_ne_zero hn
  have hkQ : (0 : ℚ) ≤ (k : ℚ) := by exact_mod_cast hk0
  have hk1Q : (k : ℚ) + 1 ≤ (frame.length : ℚ) := by exact_mod_cast hk1
  have hcast : ((k + 1 : ℤ) : ℚ) = (k : ℚ) + 1 := by push_cast; ring
  obtain ⟨b1, b2, hb1, hb2, hb12⟩ :=
    npPercentile_mono frame hn
      ((k : ℚ) / (frame.length : ℚ) * 100)
      (((k : ℚ) + 1) / (frame.length : ℚ) * 100)
      (mul_nonneg (div_nonneg hkQ hN.le) (by norm_num))
      (mul_le_mul_of_nonneg_right
        ((div_le_div_iff_of_pos_right hN).mpr (by linarith)) (by norm_num))
      (by rw [div_mul_eq_mul_div, div_le_iff₀ hN]; linarith)
  obtain ⟨w2, w1, hw2, hw1, hw21⟩ :=
    npPercentile_mono frame hn
      ((1 - ((k : ℚ) + 1) / (frame.length : ℚ)) * 100)
      ((1 - (k : ℚ) / (frame.length : ℚ)) * 100)
      (mul_nonneg (by rw [sub_nonneg, div_le_one hN]; linarith) (by norm_num))
      (mul_le_mul_of_nonneg_right
        (by
          have := (div_le_div_iff_of_pos_right hN).mpr
            (show (k : ℚ) ≤ (k : ℚ) + 1 by linarith)
          linarith) (by norm_num))
      (by
        have : (0 : ℚ) ≤ (k : ℚ) / (frame.length : ℚ) :=
          div_nonneg hkQ hN.le
        nlinarith)
  refine ⟨b1, b2, w1, w2, ?_, ?_, hb12, ?_, ?_, hw21⟩
  · rw [blackLevel, if_neg hn]
    exact hb1
  · rw [blackLevel, if_neg hn, hcast]
    exact hb2
  · rw [whiteLevel, if_neg hn]
    exact hw1
  · rw [whiteLevel, if_neg hn, hcast]
    exact hw2

theorem blackLevel_mono_whiteLevel_antitone_witness :
    (([(1 : ℚ), 2, 3] : List ℚ) ≠ [] ∧ (0 : ℤ) ≤ 0 ∧
      (0 : ℤ) + 1 ≤ (([(1 : ℚ), 2, 3] : List ℚ).length : ℤ)) ∧
    (∃ b1 b2 w1 w2 : ℚ, blackLevel [(1 : ℚ), 2, 3] 0 = .ok b1 ∧
      blackLevel [(1 : ℚ), 2, 3] (0 + 1) = .ok b2 ∧ b1 ≤ b2 ∧
      whiteLevel [(1 : ℚ), 2, 3] 0 = .ok w1 ∧
      whiteLevel [(1 : ℚ), 2, 3] (0 + 1) = .ok w2 ∧ w2 ≤ w1) :=
  ⟨⟨by simp, le_rfl, by simp⟩,
    blackLevel_mono_whiteLevel_antitone [1, 2, 3] 0 (by simp) le_rfl (by simp)⟩

/-- C10: `blackLevel frame k` and `whiteLevel frame (N - k)` address the same
percentile rank `(k / N) * 100`, so they agree exactly (rational
arithmetic), for `0 ≤ k ≤ N`. -/
theorem blackLevel_eq_whiteLevel_complement (frame : List ℚ) (k : ℤ)
    (h : frame ≠ []) :
    blackLevel frame k = whiteLevel frame ((frame.length : ℤ) - k) := by
  have hn : frame.length ≠ 0 := fun h0 => h (List.length_eq_zero.mp h0)
  have hN : ((frame.length : ℚ)) ≠ 0 := by
    exact_mod_cast hn
  rw [blackLevel, whiteLevel, if_neg hn, if_neg hn]
  congr 1
  push_cast
  field_simp

lemma sorted_replicate_le (n : ℕ) (a : ℚ) :
    (List.replicate n a).Sorted (· ≤ ·) := by
  induction n with
  | zero => simp
  | succ m ih =>
    rw [List.replicate_succ, List.sorted_cons]
    exact ⟨fun b hb => (List.eq_of_mem_replicate hb).ge, ih⟩

lemma blackLevel_dead_pixel_eval :
    blackLevel ((0 : ℚ) :: List.replicate 9999 100) 1 = .ok (9999 / 100) := by
  have hsorted : ((0 : ℚ) :: List.replicate 9999 100).Sorted (· ≤ ·) := by
    rw [List.sorted_cons]
    refine ⟨fun b hb => ?_, sorted_replicate_le 9999 100⟩
    rw [List.eq_of_mem_replicate hb]
    norm_num
  have hlen : ((0 : ℚ) :: List.replicate 9999 100).length = 10000 := by
    rw [List.length_cons, List.length_replicate]
  rw [blackLevel, if_neg (by rw [hlen]; norm_num), hlen]
  rw [npPercentile_ok _ _ (by norm_num) (by norm_num)
    (by rw [hlen]; norm_num), hlen, hsorted.insertionSort_eq]
  have hi : ((1 : ℤ) : ℚ) / ((10000 : ℕ) : ℚ) * 100 / 100 * (((10000 : ℕ) : ℚ) - 1)
      = 9999 / 10000 := by norm_num
  rw [hi, percentileInterp]
  have hfl : ⌊(9999 / 10000 : ℚ)⌋ = 0 := by
    rw [Int.floor_eq_zero_iff]
    constructor <;> norm_num
  rw [hfl]
  have hg1 : ((0 : ℚ) :: List.replicate 9999 100).getD (min (Int.toNat 0 + 1) (10000 - 1)) 0
      = 100 := by
    rw [show min (Int.toNat 0 + 1) (10000 - 1) = 1 by norm_num,
      List.getD_cons_succ,
      List.getD_eq_getElem _ _ (by rw [List.length_replicate]; norm_num),
      List.getElem_replicate]
  rw [hg1]
  norm_num

/-- C4 counterexample: on the 100x100 frame of value 100 with a single dead
pixel at 0, `blackLevel` with `maxOutliers = 1` does not return 100. -/
theorem blackLevel_dead_pixel_not_100 :
    blackLevel ((0 : ℚ) :: List.replicate 9999 100) 1 ≠ .ok 100 := by
  rw [blackLevel_dead_pixel_eval]
  intro hcontr
  have : (9999 / 100 : ℚ) = 100 := by injection hcontr
  norm_num at this

/-- C4 amended: on that frame `blackLevel` with `maxOutliers = 1` returns
99.99, because the linear interpolation at percentile rank 0.01 still gives
the dead pixel a weight of 1/10000. -/
theorem blackLevel_dead_pixel_value :
    blackLevel ((0 : ℚ) :: List.replicate 9999 100) 1 = .ok (9999 / 100) :=
  blackLevel_dead_pixel_eval

/-- C5 counterexample: `maxOutliers = frame.size` is outside `[0, frame.size)`
yet `blackLevel` and `whiteLevel` silently return a value (percentile rank
100 resp. 0) instead of failing with a range error. -/
theorem blackLevel_whiteLevel_size_no_error :
    blackLevel [(5 : ℚ)] 1 = .ok 5 ∧ whiteLevel [(5 : ℚ)] 1 = .ok 5 := by
  constructor <;>
    norm_num [blackLevel, whiteLevel, npPercentile, percentileInterp,
      List.insertionSort, List.orderedInsert]

/-- C5 amended: for an outlier count outside `[0, frame.size]` — negative, or
strictly greater than the sample count — the percentile rank falls outside
`[0, 100]` and `np.percentile` raises a range error; for
`maxOutliers = frame.size` the functions silently return the maximum
(`blackLevel`) resp. minimum (`whiteLevel`), and the range check happens
inside the percentile computation rather than before it. -/
theorem blackLevel_whiteLevel_range_error (frame : List ℚ) (k : ℤ)
    (h : frame ≠ []) (hk : k < 0 ∨ (frame.length : ℤ) < k) :
    blackLevel frame k = .error .valueError ∧
      whiteLevel frame k = .error .valueError := by
  have hn : frame.length ≠ 0 := fun h0 => h (List.length_eq_zero.mp h0)
  have hN : (0 : ℚ) < (frame.length : ℚ) := by
    exact_mod_cast Nat.pos_of_ne_zero hn
  rw [blackLevel, whiteLevel, if_neg hn, if_neg hn, npPercentile, npPercentile]
  rcases hk with hk | hk
  · have hkQ : (k : ℚ) < 0 := by exact_mod_cast hk
    have hdiv : (k : ℚ) / (frame.length : ℚ) < 0 := div_neg_of_neg_of_pos hkQ hN
    constructor
    · rw [if_pos (Or.inl (by nlinarith))]
    · rw [if_pos (Or.inr (by nlinarith))]
  · have hkQ : (frame.length : ℚ) < (k : ℚ) := by exact_mod_cast hk
    have hdiv : 1 < (k : ℚ) / (frame.length : ℚ) := by
      rw [lt_div_iff₀ hN]
      linarith
    constructor
    · rw [if_pos (Or.inr (by nlinarith))]
    · rw [if_pos (Or.inl (by nlinarith))]

theorem blackLevel_whiteLevel_range_error_witness :
    (([(5 : ℚ)] : List ℚ) ≠ [] ∧
      ((-1 : ℤ) < 0 ∨ (([(5 : ℚ)] : List ℚ).length : ℤ) < -1)) ∧
    (blackLevel [(5 : ℚ)] (-1) = .error .valueError ∧
      whiteLevel [(5 : ℚ)] (-1) = .error .valueError) :=
  ⟨⟨by simp, Or.inl (by norm_num)⟩,
    blackLevel_whiteLevel_range_error [5] (-1) (by simp) (Or.inl (by norm_num))⟩

/-- C3 counterexample: `quantize(frame, M, M)` is not the identity: the
`+0.5` / `uint16` conversion still runs, so the non-integer sample `0.6`
comes back as `1`. -/
theorem quantize_same_maxval_not_identity :
    quantize [(3 / 5 : ℚ)] 255 255 = [1] ∧ ((1 : ℚ) ≠ 3 / 5) := by
  refine ⟨?_, by norm_num⟩
  rw [quantize, if_neg (fun hc => hc rfl), List.map_cons, List.map_nil]
  have hfl : ⌊(3 / 5 : ℚ) + 1 / 2⌋ = 1 := by
    rw [Int.floor_eq_iff]
    norm_num
  rw [hfl]
  rfl

/-- C3 amended: when `maxval = newmaxval` the rescale is skipped, but the
frame still goes through the `+0.5`-and-truncate `uint16` conversion (the
dtype always becomes `uint16`, per the function's own docstring); the result
is numerically equal to the input exactly when every sample is an integer in
`[0, 2^16)`. -/
theorem quantize_same_maxval_integer_identity (l : List ℕ) (M : ℚ)
    (hl : ∀ s ∈ l, s < 65536) :
    quantize (l.map (Nat.cast : ℕ → ℚ)) M M = l := by
  rw [quantize, if_neg (fun hc => hc rfl), List.map_map]
  have hid : ∀ s ∈ l,
      ((fun s : ℚ => (⌊s + (1 : ℚ)/2⌋ % 65536).toNat) ∘ (Nat.cast : ℕ → ℚ)) s
        = id s := by
    intro s hs
    have hfl : ⌊(s : ℚ) + 1 / 2⌋ = (s : ℤ) := by
      rw [Int.floor_eq_iff]
      constructor
      · push_cast
        linarith
      · push_cast
        linarith
    simp only [Function.comp_apply, id_eq, hfl]
    rw [Int.emod_eq_of_lt (by positivity) (by exact_mod_cast hl s hs),
      Int.toNat_natCast]
  rw [List.map_congr_left hid, List.map_id]

theorem quantize_same_maxval_integer_identity_witness :
    (∀ s ∈ [(3 : ℕ), 0, 65535], s < 65536) ∧
      quantize ([(3 : ℕ), 0, 65535].map (Nat.cast : ℕ → ℚ)) 7 7
        = [(3 : ℕ), 0, 65535] :=
  ⟨by norm_num, quantize_same_maxval_integer_identity [3, 0, 65535] 7
    (by norm_num)⟩

/-- C8: with `maxval ≠ newmaxval` and non-negative samples, `quantize` scales
each sample by `newmaxval / maxval` and rounds it half-up (adding 0.5 and
truncating), i.e. it computes `round` of the scaled value; in particular a
frame of all 512 with `maxval = 1023`, `newmaxval = 255` quantizes to all
128. -/
theorem quantize_scales_and_rounds_half_up :
    (∀ (frame : List ℚ) (maxval newmaxval : ℚ), maxval ≠ newmaxval →
      0 < maxval → 0 ≤ newmaxval → (∀ s ∈ frame, 0 ≤ s) →
      (∀ s ∈ frame, round (s * (newmaxval / maxval)) < 65536) →
      quantize frame maxval newmaxval
        = frame.map (fun s => (round (s * (newmaxval / maxval))).toNat)) ∧
    (∀ n : ℕ, quantize (List.replicate n (512 : ℚ)) 1023 255
      = List.replicate n 128) := by
  constructor
  · intro frame maxval newmaxval hne hmax hnew hpos hrange
    rw [quantize, if_pos hne, List.map_map]
    refine List.map_congr_left (fun s hs => ?_)
    have hscale : 0 ≤ s * (newmaxval / maxval) :=
      mul_nonneg (hpos s hs) (div_nonneg hnew hmax.le)
    have hround : round (s * (newmaxval / maxval))
        = ⌊s * (newmaxval / maxval) + 1 / 2⌋ := round_eq _
    simp only [Function.comp_apply]
    rw [← hround, Int.emod_eq_of_lt ?_ (hrange s hs), hround]
    rw [hround]
    exact Int.floor_nonneg.mpr (by linarith)
  · intro n
    rw [quantize, if_pos (by norm_num), List.map_replicate, List.map_replicate]
    have hfl : ⌊(512 : ℚ) * (255 / 1023) + 1 / 2⌋ = 128 := by
      rw [Int.floor_eq_iff]
      norm_num
    rw [hfl]
    rfl

theorem quantize_scales_and_rounds_half_up_witness :
    ((1023 : ℚ) ≠ 255 ∧ (0 : ℚ) < 1023 ∧ (0 : ℚ) ≤ 255 ∧
      (∀ s ∈ [(512 : ℚ)], 0 ≤ s) ∧
      (∀ s ∈ [(512 : ℚ)], round (s * (255 / 1023)) < 65536)) ∧
    quantize [(512 : ℚ)] 1023 255
      = [(512 : ℚ)].map (fun s => (round (s * ((255 : ℚ) / 1023))).toNat) := by
  have hr : ∀ s ∈ [(512 : ℚ)], round (s * (255 / 1023)) < 65536 := by
    intro s hs
    rw [List.mem_singleton.mp hs, round_eq]
    have : ⌊(512 : ℚ) * (255 / 1023) + 1 / 2⌋ = 128 := by
      rw [Int.floor_eq_iff]
      norm_num
    rw [this]
    norm_num
  exact ⟨⟨by norm_num, by norm_num, by norm_num, by norm_num, hr⟩,
    quantize_scales_and_rounds_half_up.1 [512] 1023 255 (by norm_num)
      (by norm_num) (by norm_num) (by norm_num) hr⟩

/-! ### Gamma and degamma (`isptools.gamma`, `isptools.degamma`)

The transfer curves use real powers, so frames are `List ℝ` here.  The
vectorized blend `srgb_hi * mask + srgb_lo * (~mask)` selects, per sample,
the high branch exactly where the predicate holds, which for the
non-negative samples the code is meant for is the pointwise `if` below. -/

/-- sRGB encode on a normalized sample (threshold mask `x > 0.0031308`). -/
noncomputable def srgbGamma (x : ℝ) : ℝ :=
  if x > 0.0031308 then 1.055 * x ^ ((1 : ℝ) / 2.4) - 0.055 else 12.92 * x

/-- rec709 encode on a normalized sample (threshold mask `x > 0.018`). -/
noncomputable def rec709Gamma (x : ℝ) : ℝ :=
  if x > 0.018 then 1.099 * x ^ (0.45 : ℝ) - 0.099 else 4.5 * x

/-- sRGB decode on a normalized sample (threshold mask `x > 0.04045`). -/
noncomputable def srgbDegamma (x : ℝ) : ℝ :=
  if x > 0.04045 then ((x + 0.055) / 1.055) ^ (2.4 : ℝ) else x / 12.92

/-- rec709 decode on a normalized sample (threshold mask `x > 0.081`). -/
noncomputable def rec709Degamma (x : ℝ) : ℝ :=
  if x > 0.081 then ((x + 0.099) / 1.099) ^ ((1 : ℝ) / 0.45) else x / 4.5

/-- `isptools.gamma`: `None` mode returns the frame untouched, `"sRGB"` and
`"rec709"` normalize by `maxval`, apply the encode curve and denormalize; any
other mode string reaches the blend line with `srgb_hi`, `srgb_lo` and
`thresholdMask` unassigned, raising `UnboundLocalError`. -/
noncomputable def gamma (frame : List ℝ) (maxval : ℝ) (mode : Option String) :
    Except PyErr (List ℝ) :=
  match mode with
  | none => .ok frame
  | some m =>
    if m = "sRGB" then .ok (frame.map fun s => srgbGamma (s / maxval) * maxval)
    else if m = "rec709" then
      .ok (frame.map fun s => rec709Gamma (s / maxval) * maxval)
    else .error .unboundLocalError

/-- `isptools.degamma`: inverse curves, same structure as `gamma`. -/
noncomputable def degamma (frame : List ℝ) (maxval : ℝ) (mode : Option String) :
    Except PyErr (List ℝ) :=
  match mode with
  | none => .ok frame
  | some m =>
    if m = "sRGB" then
      .ok (frame.map fun s => srgbDegamma (s / maxval) * maxval)
    else if m = "rec709" then
      .ok (frame.map fun s => rec709Degamma (s / maxval) * maxval)
    else .error .unboundLocalError

/-- C9: with mode `None`, `gamma` and `degamma` return the input frame
unchanged for every frame and every `maxval` (explicit no-op branch, not an
error). -/
theorem gamma_degamma_none_identity (frame : List ℝ) (maxval : ℝ) :
    gamma frame maxval none = .ok frame ∧
      degamma frame maxval none = .ok frame :=
  ⟨rfl, rfl⟩

/-- C6: on a mode string outside `{"sRGB", "rec709", None}` the code does
fail fast — but with an accidental `UnboundLocalError` from the unassigned
blend variables, not with a deliberate usage error. -/
theorem gamma_degamma_unknown_mode_unbound_local :
    gamma [(1 : ℝ)] 255 (some "gamma2.2") = .error .unboundLocalError ∧
      degamma [(1 : ℝ)] 255 (some "gamma2.2") = .error .unboundLocalError := by
  constructor <;> rfl

lemma rpow_natDiv_le_iff {x c : ℝ} (hx : 0 ≤ x) (hc : 0 ≤ c) {p q : ℕ}
    (hq : 0 < q) : x ^ (((p : ℝ)) / ((q : ℝ))) ≤ c ↔ x ^ p ≤ c ^ q := by
  have hqR : ((q : ℝ)) ≠ 0 := Nat.cast_ne_zero.mpr hq.ne'
  have key : (x ^ (((p : ℝ)) / ((q : ℝ)))) ^ q = x ^ p := by
    rw [← Real.rpow_natCast (x ^ (((p : ℝ)) / ((q : ℝ)))) q, ← Real.rpow_mul hx,
      div_mul_cancel₀ _ hqR, Real.rpow_natCast]
  rw [← key]
  exact (pow_le_pow_iff_left₀ (Real.rpow_nonneg hx _) hc hq.ne').symm

lemma le_rpow_natDiv_iff {x c : ℝ} (hx : 0 ≤ x) (hc : 0 ≤ c) {p q : ℕ}
    (hq : 0 < q) : c ≤ x ^ (((p : ℝ)) / ((q : ℝ))) ↔ c ^ q ≤ x ^ p := by
  have hqR : ((q : ℝ)) ≠ 0 := Nat.cast_ne_zero.mpr hq.ne'
  have key : (x ^ (((p : ℝ)) / ((q : ℝ)))) ^ q = x ^ p := by
    rw [← Real.rpow_natCast (x ^ (((p : ℝ)) / ((q : ℝ)))) q, ← Real.rpow_mul hx,
      div_mul_cancel₀ _ hqR, Real.rpow_natCast]
  rw [← key]
  exact (pow_le_pow_iff_left₀ hc (Real.rpow_nonneg hx _) hq.ne').symm

/-- rec709 decode inverts rec709 encode exactly on `[0, ∞)`: the encode of
the linear-branch boundary `0.018` is `≈ 0.0813`, safely above the decode
threshold `0.081`, so encode and decode always agree on the branch. -/
lemma rec709Degamma_rec709Gamma (x : ℝ) (hx : 0 ≤ x) :
    rec709Degamma (rec709Gamma x) = x := by
  have hexp : (0.45 : ℝ) = ((9 : ℕ) : ℝ) / ((20 : ℕ) : ℝ) := by norm_num
  rw [rec709Gamma]
  split_ifs with h1
  · have ht : (0.18 : ℝ) / 1.099 ≤ (0.018 : ℝ) ^ (0.45 : ℝ) := by
      rw [hexp]
      rw [le_rpow_natDiv_iff (by norm_num) (by norm_num) (by norm_num)]
      norm_num
    have hmono : (0.018 : ℝ) ^ (0.45 : ℝ) < x ^ (0.45 : ℝ) :=
      Real.rpow_lt_rpow (by norm_num) h1 (by norm_num)
    have hcond : 1.099 * x ^ (0.45 : ℝ) - 0.099 > 0.081 := by nlinarith
    rw [rec709Degamma, if_pos hcond]
    have harg : (1.099 * x ^ (0.45 : ℝ) - 0.099 + 0.099) / 1.099
        = x ^ (0.45 : ℝ) := by
      field_simp
    rw [harg, ← Real.rpow_mul hx]
    norm_num
  · push_neg at h1
    have hcond : ¬(4.5 * x > 0.081) := by push_neg; linarith
    rw [rec709Degamma, if_neg hcond]
    field_simp

/-- sRGB decode inverts sRGB encode on `[0, ∞)` up to an absolute error of
`10⁻⁷` on the normalized scale.  The code's linear/power threshold `0.0031308`
sits a hair above the exact crossover, so encodes of `x` in the tiny window
`(0.0031308, ≈0.00313081]` land at or below the decode threshold `0.04045`
and decode through the linear branch; everywhere else the round trip is
exact. -/
lemma srgbDegamma_srgbGamma (x : ℝ) (hx : 0 ≤ x) :
    |srgbDegamma (srgbGamma x) - x| ≤ 1 / 10 ^ 7 := by
  have hexp : ((1 : ℝ)) / 2.4 = ((5 : ℕ) : ℝ) / ((12 : ℕ) : ℝ) := by norm_num
  rw [srgbGamma]
  split_ifs with h1
  · rw [srgbDegamma]
    split_ifs with h2
    · -- the encoded value clears the decode threshold: exact inversion
      have harg : (1.055 * x ^ ((1 : ℝ) / 2.4) - 0.055 + 0.055) / 1.055
          = x ^ ((1 : ℝ) / 2.4) := by
        field_simp
      rw [harg, ← Real.rpow_mul hx]
      norm_num
    · -- the mismatch window: the decode takes the linear branch
      push_neg at h2
      set t : ℝ := x ^ ((1 : ℝ) / 2.4) with ht_def
      have htnn : 0 ≤ t := Real.rpow_nonneg hx _
      have htub : t ≤ 0.09545 / 1.055 := by linarith
      have hxc : x ≤ 0.00313085 := by
        have htub2 : x ^ (((5 : ℕ) : ℝ) / ((12 : ℕ) : ℝ)) ≤ 0.09545 / 1.055 := by
          rw [← hexp]
          exact htub
        have h5 : x ^ (5 : ℕ) ≤ ((0.09545 : ℝ) / 1.055) ^ (12 : ℕ) :=
          (rpow_natDiv_le_iff hx (by norm_num) (by norm_num)).mp htub2
        have hc5 : ((0.09545 : ℝ) / 1.055) ^ (12 : ℕ)
            ≤ (0.00313085 : ℝ) ^ (5 : ℕ) := by norm_num
        exact (pow_le_pow_iff_left₀ hx (by norm_num) (by norm_num)).mp
          (h5.trans hc5)
      have htlb : (0.0954499 : ℝ) / 1.055 ≤ t := by
        have hth : (0.0954499 : ℝ) / 1.055 ≤ (0.0031308 : ℝ) ^ (((5 : ℕ) : ℝ) / ((12 : ℕ) : ℝ)) := by
          rw [le_rpow_natDiv_iff (by norm_num) (by norm_num) (by norm_num)]
          norm_num
        rw [← hexp] at hth
        have hmono : (0.0031308 : ℝ) ^ ((1 : ℝ) / 2.4) ≤ x ^ ((1 : ℝ) / 2.4) :=
          Real.rpow_le_rpow (by norm_num) h1.le (by norm_num)
        exact hth.trans hmono
      set g : ℝ := (1.055 * t - 0.055) / 12.92 with hg_def
      have hgmul : (12.92 : ℝ) * g = 1.055 * t - 0.055 := by
        rw [hg_def]
        field_simp
      have hglb : (0.0404499 : ℝ) ≤ 12.92 * g := by
        rw [hgmul]
        nlinarith
      have hgub : (12.92 : ℝ) * g ≤ 0.04045 := by
        rw [hgmul]
        linarith
      rw [abs_le]
      constructor <;> linarith
  · push_neg at h1
    rw [srgbDegamma]
    have hcond : ¬(12.92 * x > 0.04045) := by push_neg; nlinarith
    rw [if_neg hcond]
    have : 12.92 * x / 12.92 = x := by field_simp
    rw [this]
    simp

/-- C2: `gamma` then `degamma` with the same `(maxval, mode)`, for
`mode ∈ {"sRGB", "rec709"}` and samples in `[0, maxval]`, returns the
original frame within `maxval * 10⁻⁷` per sample (the rec709 round trip is
exact; the sRGB one is exact outside a `≈ 5·10⁻⁸`-wide normalized window
near the threshold). -/
theorem gamma_degamma_roundtrip (frame : List ℝ) (maxval : ℝ) (mode : String)
    (hmax : 0 < maxval) (hmode : mode = "sRGB" ∨ mode = "rec709")
    (hframe : ∀ s ∈ frame, 0 ≤ s ∧ s ≤ maxval) :
    ∃ g d : List ℝ, gamma frame maxval (some mode) = .ok g ∧
      degamma g maxval (some mode) = .ok d ∧
      List.Forall₂ (fun s t => |t - s| ≤ maxval * (1 / 10 ^ 7)) frame d := by
  have hne : maxval ≠ 0 := hmax.ne'
  rcases hmode with rfl | rfl
  · refine ⟨frame.map fun s => srgbGamma (s / maxval) * maxval,
      (frame.map fun s => srgbGamma (s / maxval) * maxval).map
        (fun s => srgbDegamma (s / maxval) * maxval), rfl, rfl, ?_⟩
    rw [List.map_map, List.forall₂_map_right_iff, List.forall₂_same]
    intro s hs
    obtain ⟨hs0, _⟩ := hframe s hs
    have hxnn : 0 ≤ s / maxval := div_nonneg hs0 hmax.le
    have hcanc : srgbGamma (s / maxval) * maxval / maxval
        = srgbGamma (s / maxval) := mul_div_cancel_right₀ _ hne
    simp only [Function.comp_apply]
    rw [hcanc]
    have hb := srgbDegamma_srgbGamma (s / maxval) hxnn
    have hsub : srgbDegamma (srgbGamma (s / maxval)) * maxval - s
        = (srgbDegamma (srgbGamma (s / maxval)) - s / maxval) * maxval := by
      rw [sub_mul, div_mul_cancel₀ _ hne]
    rw [hsub, abs_mul, abs_of_pos hmax]
    calc |srgbDegamma (srgbGamma (s / maxval)) - s / maxval| * maxval
        ≤ 1 / 10 ^ 7 * maxval := mul_le_mul_of_nonneg_right hb hmax.le
      _ = maxval * (1 / 10 ^ 7) := by ring
  · refine ⟨frame.map fun s => rec709Gamma (s / maxval) * maxval,
      (frame.map fun s => rec709Gamma (s / maxval) * maxval).map
        (fun s => rec709Degamma (s / maxval) * maxval), rfl, rfl, ?_⟩
    rw [List.map_map, List.forall₂_map_right_iff, List.forall₂_same]
    intro s hs
    obtain ⟨hs0, _⟩ := hframe s hs
    have hxnn : 0 ≤ s / maxval := div_nonneg hs0 hmax.le
    have hcanc : rec709Gamma (s / maxval) * maxval / maxval
        = rec709Gamma (s / maxval) := mul_div_cancel_right₀ _ hne
    simp only [Function.comp_apply]
    rw [hcanc, rec709Degamma_rec709Gamma (s / maxval) hxnn,
      div_mul_cancel₀ _ hne]
    simp
    positivity

theorem gamma_degamma_roundtrip_witness :
    ((0 : ℝ) < 1 ∧ ("sRGB" = "sRGB" ∨ "sRGB" = "rec709") ∧
      (∀ s ∈ [(0 : ℝ), 1], 0 ≤ s ∧ s ≤ 1)) ∧
    (∃ g d : List ℝ, gamma [(0 : ℝ), 1] 1 (some "sRGB") = .ok g ∧
      degamma g 1 (some "sRGB") = .ok d ∧
      List.Forall₂ (fun s t => |t - s| ≤ 1 * (1 / 10 ^ 7)) [(0 : ℝ), 1] d) :=
  ⟨⟨one_pos, Or.inl rfl, by norm_num⟩,
    gamma_degamma_roundtrip [0, 1] 1 "sRGB" one_pos (Or.inl rfl) (by norm_num)⟩

theorem blackLevel_eq_whiteLevel_complement_witness :
    (([(1 : ℚ), 2] : List ℚ) ≠ []) ∧
      blackLevel [(1 : ℚ), 2] 1
        = whiteLevel [(1 : ℚ), 2] ((([(1 : ℚ), 2] : List ℚ).length : ℤ) - 1) :=
  ⟨by simp, blackLevel_eq_whiteLevel_complement [1, 2] 1 (by simp)⟩
